import Mathlib

/-!
Shallow embedding of the drug-indices repository
(`src/drug_indices/indices.py`) and proofs about its specification.

The Python code builds, for each molecule, an undirected `networkx.Graph`
from an edge list via `G.add_edges_from(edges)`, computes ten degree-based
topological indices by summing per-edge contributions, rounds them to three
decimal places with Python's `round` (round-half-to-even), and aggregates
the per-molecule records sorted by name.

Modelling choices:
* a `networkx.Graph` is a *simple* undirected graph (repeated edges are
  collapsed; self-loops are allowed and count twice toward the degree);
  we model the graph as the insertion-ordered, duplicate-free edge list
  produced by `add_edges_from`;
* Python floats are modelled by exact arithmetic: `ℚ` for the nine
  rational-valued accumulators and `ℝ` (with `Real.sqrt`) for `SC`;
* `dict.get` is modelled by a function into `Option`, and the JSON value
  attached to a molecule name (edge list vs. error object) by `SourceVal`.
-/

namespace DrugIndices

/-- An edge list: ordered pairs of atom indices, as read from the JSON file. -/
abbrev EdgeList := List (ℕ × ℕ)

/-- Unordered-pair equality of edges: `networkx` treats `(u, v)` and `(v, u)`
as the same undirected edge. -/
def sameEdge (e f : ℕ × ℕ) : Bool :=
  (e.1 == f.1 && e.2 == f.2) || (e.1 == f.2 && e.2 == f.1)

/-- Model of `G = nx.Graph(); G.add_edges_from(edges)`: insert the edges in order,
skipping any edge already present (a `networkx.Graph` is a simple graph and
keeps at most one copy of each undirected edge). The result is the list of
edges of the graph, in insertion order, as iterated by `G.edges()`. -/
def addEdgesFrom (edges : EdgeList) : EdgeList :=
  edges.foldl (fun G e => if G.any (fun f => sameEdge f e) then G else G ++ [e]) []

/-- Model of `G.degree[n]`: the number of edge endpoints incident to `n`.
A self-loop contributes 2, matching `networkx` degree semantics. -/
def degree (G : EdgeList) (n : ℕ) : ℕ :=
  (G.map fun e => (if e.1 = n then 1 else 0) + (if e.2 = n then 1 else 0)).sum

/-- The ten-key index dictionary returned by `calculate_indices`. -/
structure Indices where
  M1 : ℚ
  M2 : ℚ
  mM2 : ℚ
  FG : ℚ
  ISI : ℚ
  H : ℚ
  SC : ℝ
  HM : ℚ
  A : ℚ
  SDD : ℚ

attribute [ext] Indices

/-- The initial accumulator: all ten keys present, each `0.0`. -/
def initialIndices : Indices :=
  { M1 := 0, M2 := 0, mM2 := 0, FG := 0, ISI := 0,
    H := 0, SC := 0, HM := 0, A := 0, SDD := 0 }

/-- One iteration of the `for x, y in G.edges()` loop of `calculate_indices`:
accumulate the per-edge contributions derived from the endpoint degrees. -/
noncomputable def edgeStep (G : EdgeList) (acc : Indices) (e : ℕ × ℕ) : Indices :=
  let dx : ℚ := degree G e.1
  let dy : ℚ := degree G e.2
  let s : ℚ := dx + dy
  { M1 := acc.M1 + s
    M2 := acc.M2 + dx * dy
    mM2 := acc.mM2 + (if dx * dy ≠ 0 then 1 / (dx * dy) else 0)
    FG := acc.FG + (dx ^ 2 + dy ^ 2)
    ISI := acc.ISI + (if s ≠ 0 then dx * dy / s else 0)
    H := acc.H + (if s ≠ 0 then 2 / s else 0)
    SC := acc.SC + (if s ≠ 0 then Real.sqrt (1 / (s : ℝ)) else 0)
    HM := acc.HM + s ^ 2
    A := if s ≠ 2 then acc.A + (dx * dy / (s - 2)) ^ 3 else acc.A
    SDD := acc.SDD + ((if dy ≠ 0 then dx / dy else 0) + (if dx ≠ 0 then dy / dx else 0)) }

/-- Model of `calculate_indices(G)`: fold the per-edge contribution over the edges of
the graph, starting from the all-zero dictionary. -/
noncomputable def calculate_indices (G : EdgeList) : Indices :=
  G.foldl (edgeStep G) initialIndices

/-- Round-half-to-even on `ℚ`, the semantics of Python's `round` applied to
an exactly represented value: round to the nearest integer, ties to the even
integer. -/
def roundHalfEven (q : ℚ) : ℤ :=
  if q - ⌊q⌋ < 1 / 2 then ⌊q⌋
  else if 1 / 2 < q - ⌊q⌋ then ⌊q⌋ + 1
  else if Even ⌊q⌋ then ⌊q⌋ else ⌊q⌋ + 1

/-- Python's `round(v, 3)` on an exactly represented rational value. -/
def round3 (q : ℚ) : ℚ := (roundHalfEven (q * 1000) : ℚ) / 1000

/-- Round-half-to-even on `ℝ`, used for the (possibly irrational) `SC` key. -/
noncomputable def roundHalfEvenR (x : ℝ) : ℤ :=
  if x - ⌊x⌋ < 1 / 2 then ⌊x⌋
  else if 1 / 2 < x - ⌊x⌋ then ⌊x⌋ + 1
  else if Even ⌊x⌋ then ⌊x⌋ else ⌊x⌋ + 1

/-- Python's `round(v, 3)` on a real value. -/
noncomputable def round3R (x : ℝ) : ℝ := (roundHalfEvenR (x * 1000) : ℝ) / 1000

/-- Model of `{k: round(v, 3) for k, v in raw.items()}`: round every value of the
index dictionary to 3 decimal places. -/
noncomputable def roundIndices (v : Indices) : Indices :=
  { M1 := round3 v.M1, M2 := round3 v.M2, mM2 := round3 v.mM2,
    FG := round3 v.FG, ISI := round3 v.ISI, H := round3 v.H,
    SC := round3R v.SC, HM := round3 v.HM, A := round3 v.A,
    SDD := round3 v.SDD }

/-- A molecule name. Python compares strings lexicographically by code
point; we model a string as its list of characters, which carries exactly
that lexicographic order. -/
abbrev Name := List Char

/-- A value stored under a molecule name in the JSON document: either a list
of edge pairs, or any non-list value (the error object written by the
retrieval layer), kept opaque. -/
inductive SourceVal where
  | edgeList (es : EdgeList)
  | marker (m : List Char)

/-- The body of a per-molecule result dictionary: either the rounded index
dictionary (key `"indices"`), or the error payload (key `"error"`) holding
`data.get(name)` unchanged, which is `none` when the name is missing. -/
inductive RecordBody where
  | indices (v : Indices)
  | error (e : Option SourceVal)

/-- One entry of the result list of `calculate_and_return_all_drugs`:
`{"drug": name, "indices": ...}` or `{"drug": name, "error": ...}`. -/
structure MoleculeRecord where
  drug : Name
  body : RecordBody

/-- Python's `sorted` on a list of names (lexicographic by code point).
Both `sorted` and `insertionSort` are stable, so they agree as functions. -/
def sortNames (names : List Name) : List Name :=
  names.insertionSort (· ≤ ·)

/-- Model of `calculate_and_return_all_drugs(drug_list, data)`: iterate the names in
sorted order; an edge-list entry yields a success record with the rounded
indices of its graph, anything else (missing name or error object) yields an
error record carrying `data.get(name)` unchanged. -/
noncomputable def calculate_and_return_all_drugs
    (drug_list : List Name) (data : Name → Option SourceVal) :
    List MoleculeRecord :=
  (sortNames drug_list).map fun name =>
    match data name with
    | some (.edgeList es) =>
        { drug := name,
          body := .indices (roundIndices (calculate_indices (addEdgesFrom es))) }
    | v => { drug := name, body := .error v }

/-- Test for the success variant (`"indices" in r` in the Python source). -/
def RecordBody.isSuccess : RecordBody → Bool
  | .indices _ => true
  | .error _ => false

/-- Extract the index dictionary of a success record (`r["indices"]`);
only applied to records that passed the `isSuccess` filter. -/
def RecordBody.indicesVal : RecordBody → Indices
  | .indices v => v
  | .error _ => initialIndices

/-- Model of `save_results_to_dataframe(results)`: keep the records that carry an
`"indices"` key and lay them out as rows labelled by drug name. -/
def save_results_to_dataframe (results : List MoleculeRecord) :
    List (Name × Indices) :=
  (results.filter fun r => r.body.isSuccess).map fun r =>
    (r.drug, r.body.indicesVal)

/-! ### Helper lemmas about the graph builder -/

theorem sameEdge_refl (e : ℕ × ℕ) : sameEdge e e = true := by
  simp [sameEdge]

theorem sameEdge_symm {e f : ℕ × ℕ} (h : sameEdge e f = true) : sameEdge f e = true := by
  simp [sameEdge] at h ⊢
  tauto

theorem sameEdge_endpoints {e f : ℕ × ℕ} (h : sameEdge e f = true) :
    (e.1 = f.1 ∧ e.2 = f.2) ∨ (e.1 = f.2 ∧ e.2 = f.1) := by
  simpa [sameEdge] using h

theorem one_le_degree_of_mem {G : EdgeList} {f : ℕ × ℕ} (hf : f ∈ G) {n : ℕ}
    (hn : f.1 = n ∨ f.2 = n) : 1 ≤ degree G n := by
  induction G with
  | nil => cases hf
  | cons g t ih =>
    rcases List.mem_cons.mp hf with rfl | hmem
    · rcases hn with h1 | h2
      · simp only [degree, List.map_cons, List.sum_cons, h1, if_pos]
        omega
      · simp only [degree, List.map_cons, List.sum_cons, h2, if_pos]
        omega
    · have := ih hmem
      simp only [degree, List.map_cons, List.sum_cons] at *
      omega

theorem mem_foldl_addEdges (es : EdgeList) (acc : EdgeList) {f : ℕ × ℕ} (hf : f ∈ acc) :
    f ∈ es.foldl (fun G e => if G.any (fun g => sameEdge g e) then G else G ++ [e]) acc := by
  induction es generalizing acc with
  | nil => exact hf
  | cons a t ih =>
    simp only [List.foldl_cons]
    by_cases h : acc.any (fun g => sameEdge g a) = true
    · rw [if_pos h]; exact ih acc hf
    · rw [if_neg h]; exact ih _ (List.mem_append_left _ hf)

theorem exists_sameEdge_foldl (es : EdgeList) (acc : EdgeList) {e : ℕ × ℕ} (he : e ∈ es) :
    ∃ f ∈ es.foldl (fun G e => if G.any (fun g => sameEdge g e) then G else G ++ [e]) acc,
      sameEdge e f = true := by
  induction es generalizing acc with
  | nil => cases he
  | cons a t ih =>
    simp only [List.foldl_cons]
    rcases List.mem_cons.mp he with rfl | hmem
    · by_cases h : acc.any (fun g => sameEdge g e) = true
      · rw [if_pos h]
        obtain ⟨g, hg, hge⟩ := List.any_eq_true.mp h
        exact ⟨g, mem_foldl_addEdges t acc hg, sameEdge_symm hge⟩
      · rw [if_neg h]
        exact ⟨e, mem_foldl_addEdges t _ (List.mem_append_right _ (List.mem_singleton_self e)),
          sameEdge_refl e⟩
    · by_cases h : acc.any (fun g => sameEdge g a) = true
      · rw [if_pos h]; exact ih acc hmem
      · rw [if_neg h]; exact ih _ hmem

theorem pairwise_foldl_addEdges (es : EdgeList) (acc : EdgeList)
    (hacc : acc.Pairwise (fun f g => sameEdge f g = false)) :
    (es.foldl (fun G e => if G.any (fun g => sameEdge g e) then G else G ++ [e]) acc).Pairwise
      (fun f g => sameEdge f g = false) := by
  induction es generalizing acc with
  | nil => exact hacc
  | cons a t ih =>
    simp only [List.foldl_cons]
    by_cases h : acc.any (fun g => sameEdge g a) = true
    · rw [if_pos h]; exact ih acc hacc
    · rw [if_neg h]
      refine ih _ ?_
      rw [List.pairwise_append]
      refine ⟨hacc, List.pairwise_singleton _ _, ?_⟩
      intro f hf g hg
      rw [List.mem_singleton] at hg
      subst hg
      rcases Bool.eq_false_or_eq_true (sameEdge f g) with hfg | hfg
      · exact absurd (List.any_eq_true.mpr ⟨f, hf, hfg⟩) h
      · exact hfg

/-! ### Claim theorems -/

/-- Claim C1, counterexample: an edge list containing the pair `(0, 1)`
twice yields degree 1 for each endpoint (not 2 as the claim states): the
graph builder collapses the repeated edge. -/
theorem duplicate_edge_counterexample :
    degree (addEdgesFrom [(0, 1), (0, 1)]) 0 = 1 ∧
    degree (addEdgesFrom [(0, 1), (0, 1)]) 1 = 1 ∧
    ¬ degree (addEdgesFrom [(0, 1), (0, 1)]) 0 = 2 := by
  decide

/-- Claim C1 (amended): building the graph DOES deduplicate repeated edges:
the edge set of the built graph contains no two copies of the same
unordered pair, an edge list containing the same pair `(u, v)` twice gives
`u` and `v` degree 1 each, and the computed indices coincide with those of
the graph of the deduplicated list. -/
theorem addEdgesFrom_deduplicates :
    (∀ es : EdgeList, (addEdgesFrom es).Pairwise (fun f g => sameEdge f g = false)) ∧
    ∀ u v : ℕ, u ≠ v →
      degree (addEdgesFrom [(u, v), (u, v)]) u = 1 ∧
      degree (addEdgesFrom [(u, v), (u, v)]) v = 1 ∧
      calculate_indices (addEdgesFrom [(u, v), (u, v)]) =
        calculate_indices (addEdgesFrom [(u, v)]) := by
  constructor
  · intro es
    exact pairwise_foldl_addEdges es [] List.Pairwise.nil
  · intro u v huv
    have hdup : addEdgesFrom [(u, v), (u, v)] = [(u, v)] := by
      simp [addEdgesFrom, sameEdge]
    have hone : addEdgesFrom [(u, v)] = [(u, v)] := by
      simp [addEdgesFrom]
    rw [hdup, hone]
    have du : degree [(u, v)] u = 1 := by simp [degree, Ne.symm huv]
    have dv : degree [(u, v)] v = 1 := by simp [degree, huv]
    exact ⟨du, dv, rfl⟩

/-- Witness for the amended claim C1, at the concrete duplicate pair
`(0, 1)`. -/
theorem addEdgesFrom_deduplicates_witness :
    (0 : ℕ) ≠ 1 ∧
    (degree (addEdgesFrom [(0, 1), (0, 1)]) 0 = 1 ∧
     degree (addEdgesFrom [(0, 1), (0, 1)]) 1 = 1 ∧
     calculate_indices (addEdgesFrom [(0, 1), (0, 1)]) =
       calculate_indices (addEdgesFrom [(0, 1)])) :=
  ⟨by decide, addEdgesFrom_deduplicates.2 0 1 (by decide)⟩

/-- Claim C2, counterexample: for the single edge between the distinct
nodes 0 and 1, the computed ISI value is 1/2, not 1 as the claim states
(the per-edge ISI contribution is `(dx*dy)/(dx+dy) = 1/2`). -/
theorem single_edge_ISI_counterexample :
    (calculate_indices (addEdgesFrom [(0, 1)])).ISI = 1 / 2 ∧
    (calculate_indices (addEdgesFrom [(0, 1)])).ISI ≠ 1 := by
  have h : addEdgesFrom [(0, 1)] = [(0, 1)] := by decide
  rw [h]
  simp only [calculate_indices, List.foldl, edgeStep, degree, initialIndices]
  norm_num

/-- Claim C2 (amended): for a single edge between two distinct nodes (each
of degree 1, `s = 2`), `compute` returns exactly `M1 = 2`, `M2 = 1`,
`mM2 = 1`, `FG = 2`, `ISI = 1/2` (not 1), `H = 1`, `SC = √(1/2)`,
`HM = 4`, `A = 0` (the only per-edge `A` term is skipped because `s = 2`),
`SDD = 2`. -/
theorem single_edge_indices (u v : ℕ) (huv : u ≠ v) :
    calculate_indices (addEdgesFrom [(u, v)]) =
      { M1 := 2, M2 := 1, mM2 := 1, FG := 2, ISI := 1 / 2, H := 1,
        SC := Real.sqrt (1 / 2), HM := 4, A := 0, SDD := 2 } := by
  have h : addEdgesFrom [(u, v)] = [(u, v)] := by simp [addEdgesFrom]
  have du : degree [(u, v)] u = 1 := by simp [degree, Ne.symm huv]
  have dv : degree [(u, v)] v = 1 := by simp [degree, huv]
  rw [h]
  simp only [calculate_indices, List.foldl, edgeStep]
  rw [du, dv]
  simp only [initialIndices]
  norm_num

/-- Witness for the amended claim C2, at the concrete edge `(0, 1)`. -/
theorem single_edge_indices_witness :
    (0 : ℕ) ≠ 1 ∧
    calculate_indices (addEdgesFrom [(0, 1)]) =
      { M1 := 2, M2 := 1, mM2 := 1, FG := 2, ISI := 1 / 2, H := 1,
        SC := Real.sqrt (1 / 2), HM := 4, A := 0, SDD := 2 } :=
  ⟨by decide, single_edge_indices 0 1 (by decide)⟩

/-- Claim C5: for every graph with zero edges, `compute` returns an index
dictionary in which all ten keys are present and every value is 0 (and, the
function being total, no error is signalled). -/
theorem calculate_indices_empty (G : EdgeList) (hG : G = []) :
    (calculate_indices G).M1 = 0 ∧ (calculate_indices G).M2 = 0 ∧
    (calculate_indices G).mM2 = 0 ∧ (calculate_indices G).FG = 0 ∧
    (calculate_indices G).ISI = 0 ∧ (calculate_indices G).H = 0 ∧
    (calculate_indices G).SC = 0 ∧ (calculate_indices G).HM = 0 ∧
    (calculate_indices G).A = 0 ∧ (calculate_indices G).SDD = 0 := by
  subst hG
  exact ⟨rfl, rfl, rfl, rfl, rfl, rfl, rfl, rfl, rfl, rfl⟩

/-- Witness for claim C5, at the empty edge list. -/
theorem calculate_indices_empty_witness :
    ([] : EdgeList) = [] ∧
    ((calculate_indices ([] : EdgeList)).M1 = 0 ∧ (calculate_indices []).M2 = 0 ∧
     (calculate_indices []).mM2 = 0 ∧ (calculate_indices []).FG = 0 ∧
     (calculate_indices []).ISI = 0 ∧ (calculate_indices []).H = 0 ∧
     (calculate_indices []).SC = 0 ∧ (calculate_indices []).HM = 0 ∧
     (calculate_indices []).A = 0 ∧ (calculate_indices []).SDD = 0) :=
  ⟨rfl, calculate_indices_empty [] rfl⟩

/-- Claim C6: for the triangle graph (edges `(0,1)`, `(1,2)`, `(2,0)`;
every node of degree 2, so `s = 4` on every edge), `compute` returns
`M1 = 12`, `M2 = 12`, `HM = 48` and `A = 24` (each edge contributes
`((2*2)/(4-2))^3 = 8` to `A` since `s ≠ 2`). -/
theorem triangle_indices :
    (calculate_indices (addEdgesFrom [(0, 1), (1, 2), (2, 0)])).M1 = 12 ∧
    (calculate_indices (addEdgesFrom [(0, 1), (1, 2), (2, 0)])).M2 = 12 ∧
    (calculate_indices (addEdgesFrom [(0, 1), (1, 2), (2, 0)])).HM = 48 ∧
    (calculate_indices (addEdgesFrom [(0, 1), (1, 2), (2, 0)])).A = 24 := by
  have h : addEdgesFrom [(0, 1), (1, 2), (2, 0)] = [(0, 1), (1, 2), (2, 0)] := by decide
  rw [h]
  simp only [calculate_indices, List.foldl, edgeStep, degree, initialIndices]
  norm_num

/-- Claim C7: a single self-loop edge `(x, x)` gives `x` degree 2 (a
self-loop counts twice), and the edge is processed normally with
`dx = dy = 2`, `s = 4`, contributing to every index (in particular the `A`
term is not skipped and equals `(4/2)^3 = 8`). -/
theorem self_loop_indices (x : ℕ) :
    degree (addEdgesFrom [(x, x)]) x = 2 ∧
    calculate_indices (addEdgesFrom [(x, x)]) =
      { M1 := 4, M2 := 4, mM2 := 1 / 4, FG := 8, ISI := 1, H := 1 / 2,
        SC := Real.sqrt (1 / 4), HM := 16, A := 8, SDD := 2 } := by
  have h : addEdgesFrom [(x, x)] = [(x, x)] := by simp [addEdgesFrom]
  have dx : degree [(x, x)] x = 2 := by simp [degree]
  rw [h]
  refine ⟨dx, ?_⟩
  simp only [calculate_indices, List.foldl, edgeStep]
  rw [dx]
  simp only [initialIndices]
  norm_num

/-- Witness for claim C7, at the concrete self-loop `(0, 0)`. -/
theorem self_loop_indices_witness :
    degree (addEdgesFrom [(0, 0)]) 0 = 2 ∧
    calculate_indices (addEdgesFrom [(0, 0)]) =
      { M1 := 4, M2 := 4, mM2 := 1 / 4, FG := 8, ISI := 1, H := 1 / 2,
        SC := Real.sqrt (1 / 4), HM := 16, A := 8, SDD := 2 } :=
  self_loop_indices 0

/-- Claim C10: in every graph built from an edge list, each endpoint of
each input edge has degree at least 1; for every edge of the built graph,
`dx * dy` is nonzero, `dx + dy ≥ 2`, and whenever `dx + dy ≠ 2` the
divisor `dx + dy - 2` of index `A` is at least 1, so `compute` never
divides by zero and the `0.0` fallback branches are never taken. -/
theorem degrees_positive (es : EdgeList) :
    (∀ e ∈ es, 1 ≤ degree (addEdgesFrom es) e.1 ∧ 1 ≤ degree (addEdgesFrom es) e.2) ∧
    ∀ e ∈ addEdgesFrom es,
      1 ≤ degree (addEdgesFrom es) e.1 ∧ 1 ≤ degree (addEdgesFrom es) e.2 ∧
      degree (addEdgesFrom es) e.1 * degree (addEdgesFrom es) e.2 ≠ 0 ∧
      2 ≤ degree (addEdgesFrom es) e.1 + degree (addEdgesFrom es) e.2 ∧
      (degree (addEdgesFrom es) e.1 + degree (addEdgesFrom es) e.2 ≠ 2 →
        1 ≤ degree (addEdgesFrom es) e.1 + degree (addEdgesFrom es) e.2 - 2) := by
  constructor
  · intro e he
    obtain ⟨f, hf, hef⟩ := exists_sameEdge_foldl es [] he
    rcases sameEdge_endpoints hef with ⟨h1, h2⟩ | ⟨h1, h2⟩
    · exact ⟨one_le_degree_of_mem hf (Or.inl h1.symm),
        one_le_degree_of_mem hf (Or.inr h2.symm)⟩
    · exact ⟨one_le_degree_of_mem hf (Or.inr h1.symm),
        one_le_degree_of_mem hf (Or.inl h2.symm)⟩
  · intro e he
    have h1 := one_le_degree_of_mem he (Or.inl rfl)
    have h2 := one_le_degree_of_mem he (Or.inr rfl)
    refine ⟨h1, h2, Nat.mul_ne_zero (by omega) (by omega), by omega, by omega⟩

/-- Witness for claim C10, at the single edge `(0, 1)`. -/
theorem degrees_positive_witness :
    ((0, 1) : ℕ × ℕ) ∈ addEdgesFrom [(0, 1)] ∧
    (1 ≤ degree (addEdgesFrom [(0, 1)]) 0 ∧ 1 ≤ degree (addEdgesFrom [(0, 1)]) 1 ∧
     degree (addEdgesFrom [(0, 1)]) 0 * degree (addEdgesFrom [(0, 1)]) 1 ≠ 0 ∧
     2 ≤ degree (addEdgesFrom [(0, 1)]) 0 + degree (addEdgesFrom [(0, 1)]) 1 ∧
     (degree (addEdgesFrom [(0, 1)]) 0 + degree (addEdgesFrom [(0, 1)]) 1 ≠ 2 →
       1 ≤ degree (addEdgesFrom [(0, 1)]) 0 + degree (addEdgesFrom [(0, 1)]) 1 - 2)) :=
  ⟨by decide, (degrees_positive [(0, 1)]).2 (0, 1) (by decide)⟩

/-! ### Helper lemmas about the batch aggregator -/

theorem sortNames_perm (l : List Name) : (sortNames l).Perm l :=
  List.perm_insertionSort _ l

theorem sortNames_sorted (l : List Name) : List.Sorted (· ≤ ·) (sortNames l) :=
  List.sorted_insertionSort _ l

theorem sortNames_eq_of_perm {l₁ l₂ : List Name} (h : l₁.Perm l₂) :
    sortNames l₁ = sortNames l₂ :=
  List.eq_of_perm_of_sorted
    (((List.perm_insertionSort _ l₁).trans h).trans (List.perm_insertionSort _ l₂).symm)
    (List.sorted_insertionSort _ l₁) (List.sorted_insertionSort _ l₂)

theorem aggregate_map_drug (drug_list : List Name) (data : Name → Option SourceVal) :
    (calculate_and_return_all_drugs drug_list data).map MoleculeRecord.drug =
      sortNames drug_list := by
  rw [calculate_and_return_all_drugs, List.map_map]
  have h : ∀ names : List Name,
      (names.map fun name =>
        (MoleculeRecord.drug ∘ fun name =>
          match data name with
          | some (.edgeList es) =>
              { drug := name,
                body := .indices (roundIndices (calculate_indices (addEdgesFrom es))) }
          | v => { drug := name, body := RecordBody.error v }) name) = names := by
    intro names
    induction names with
    | nil => rfl
    | cons a t ih =>
      simp only [List.map_cons, ih]
      rcases ha : data a with _ | sv
      · simp [ha]
      · rcases sv with es | m <;> simp [ha]
  exact h (sortNames drug_list)

theorem aggregated_record {drug_list : List Name} {data : Name → Option SourceVal}
    {r : MoleculeRecord} (hr : r ∈ calculate_and_return_all_drugs drug_list data) :
    r.drug ∈ drug_list ∧
    match data r.drug with
    | some (.edgeList es) =>
        r.body = .indices (roundIndices (calculate_indices (addEdgesFrom es)))
    | v => r.body = .error v := by
  rw [calculate_and_return_all_drugs, List.mem_map] at hr
  obtain ⟨name, hname, rfl⟩ := hr
  have hmem : name ∈ drug_list := (sortNames_perm drug_list).mem_iff.mp hname
  rcases hv : data name with _ | sv
  · simpa [hv] using hmem
  · rcases sv with es | m <;> simpa [hv] using hmem

/-- Claim C3: the batch aggregation emits its records ordered by
lexicographically ascending name, and aggregating any permutation of the
same name list over the same source yields the identical report. -/
theorem aggregate_order_invariant (l₁ l₂ : List Name) (data : Name → Option SourceVal)
    (h : l₁.Perm l₂) :
    List.Sorted (· ≤ ·)
      ((calculate_and_return_all_drugs l₁ data).map MoleculeRecord.drug) ∧
    calculate_and_return_all_drugs l₁ data = calculate_and_return_all_drugs l₂ data := by
  constructor
  · rw [aggregate_map_drug]
    exact sortNames_sorted l₁
  · unfold calculate_and_return_all_drugs
    rw [sortNames_eq_of_perm h]

/-- Witness for claim C3: the two-element name lists `["b", "a"]` and
`["a", "b"]` are permutations of each other and aggregate identically. -/
theorem aggregate_order_invariant_witness :
    (([['b'], ['a']] : List Name).Perm [['a'], ['b']]) ∧
    (List.Sorted (· ≤ ·)
      ((calculate_and_return_all_drugs [['b'], ['a']] (fun _ => none)).map
        MoleculeRecord.drug) ∧
     calculate_and_return_all_drugs [['b'], ['a']] (fun _ => none) =
       calculate_and_return_all_drugs [['a'], ['b']] (fun _ => none)) :=
  ⟨by decide,
    aggregate_order_invariant [['b'], ['a']] [['a'], ['b']] (fun _ => none) (by decide)⟩

/-- Claim C4: the batch aggregation is total (it is a Lean function, so it
never raises); the emitted drug names are a permutation of the input list,
so every name produces exactly one record regardless of any other name's
failure; a name whose source entry is missing or is an error marker yields
a failure record carrying `data.get(name)` unchanged, and an edge-list
entry yields a success record. -/
theorem aggregate_one_record_per_name (drug_list : List Name)
    (data : Name → Option SourceVal) :
    ((calculate_and_return_all_drugs drug_list data).map MoleculeRecord.drug).Perm
      drug_list ∧
    (∀ name : Name,
      ((calculate_and_return_all_drugs drug_list data).map MoleculeRecord.drug).count
        name = drug_list.count name) ∧
    ∀ r ∈ calculate_and_return_all_drugs drug_list data,
      match data r.drug with
      | some (.edgeList es) =>
          r.body = .indices (roundIndices (calculate_indices (addEdgesFrom es)))
      | v => r.body = .error v := by
  have hperm :
      ((calculate_and_return_all_drugs drug_list data).map MoleculeRecord.drug).Perm
        drug_list := by
    rw [aggregate_map_drug]
    exact sortNames_perm drug_list
  exact ⟨hperm, fun name => hperm.countP_eq (· == name), fun r hr => (aggregated_record hr).2⟩

/-- Witness for claim C4: with every source entry missing, the name `"a"`
of the list `["b", "a"]` yields the failure record carrying `none`. -/
theorem aggregate_one_record_per_name_witness :
    (⟨['a'], RecordBody.error none⟩ : MoleculeRecord) ∈
      calculate_and_return_all_drugs [['b'], ['a']] (fun _ => none) ∧
    (⟨['a'], RecordBody.error none⟩ : MoleculeRecord).body = RecordBody.error none := by
  have hmem : (⟨['a'], RecordBody.error none⟩ : MoleculeRecord) ∈
      calculate_and_return_all_drugs [['b'], ['a']] (fun _ => none) := by
    rw [show calculate_and_return_all_drugs [['b'], ['a']] (fun _ => none) =
        [⟨['a'], .error none⟩, ⟨['b'], .error none⟩] from rfl]
    exact List.mem_cons_self _ _
  exact ⟨hmem,
    (aggregate_one_record_per_name [['b'], ['a']] (fun _ => none)).2.2 _ hmem⟩

/-- Claim C8: every success record emitted by the aggregator carries the
ten index values rounded to 3 decimal places with round-half-to-even; in
particular `round3 1.23456 = 1.235`, and the ties `1234.5` and `1235.5`
thousandths round to the even digits `1.234` and `1.236` respectively. -/
theorem aggregate_rounding (drug_list : List Name) (data : Name → Option SourceVal) :
    (∀ r ∈ calculate_and_return_all_drugs drug_list data, ∀ es : EdgeList,
      data r.drug = some (.edgeList es) →
      r.body = .indices (roundIndices (calculate_indices (addEdgesFrom es)))) ∧
    round3 (123456 / 100000) = 1235 / 1000 ∧
    round3 (12345 / 10000) = 1234 / 1000 ∧
    round3 (12355 / 10000) = 1236 / 1000 := by
  refine ⟨?_, ?_, ?_, ?_⟩
  · intro r hr es hes
    have h := (aggregated_record hr).2
    rw [hes] at h
    exact h
  · norm_num [round3, roundHalfEven, Int.even_iff]
  · norm_num [round3, roundHalfEven, Int.even_iff]
  · norm_num [round3, roundHalfEven, Int.even_iff]

/-- Witness for claim C8: a one-name batch whose entry is the single-edge
list `[(0, 1)]` emits the record with the rounded computed indices. -/
theorem aggregate_rounding_witness :
    (⟨['a'],
        RecordBody.indices (roundIndices (calculate_indices (addEdgesFrom [(0, 1)])))⟩ :
        MoleculeRecord) ∈
      calculate_and_return_all_drugs [['a']] (fun _ => some (.edgeList [(0, 1)])) ∧
    (fun _ : Name => some (SourceVal.edgeList [(0, 1)])) ['a'] =
      some (SourceVal.edgeList [(0, 1)]) ∧
    (⟨['a'],
        RecordBody.indices (roundIndices (calculate_indices (addEdgesFrom [(0, 1)])))⟩ :
        MoleculeRecord).body =
      RecordBody.indices (roundIndices (calculate_indices (addEdgesFrom [(0, 1)]))) := by
  have hmem : (⟨['a'],
      RecordBody.indices (roundIndices (calculate_indices (addEdgesFrom [(0, 1)])))⟩ :
      MoleculeRecord) ∈
      calculate_and_return_all_drugs [['a']] (fun _ => some (.edgeList [(0, 1)])) := by
    rw [show calculate_and_return_all_drugs [['a']] (fun _ => some (.edgeList [(0, 1)])) =
        [⟨['a'],
          RecordBody.indices (roundIndices (calculate_indices (addEdgesFrom [(0, 1)])))⟩]
      from rfl]
    exact List.mem_singleton_self _
  exact ⟨hmem, rfl,
    (aggregate_rounding [['a']] (fun _ => some (.edgeList [(0, 1)]))).1 _ hmem [(0, 1)] rfl⟩

/-- Claim C9: the tabular export has exactly one row per success record
(row label the molecule name, value the index dictionary), every success
record yields its row, and every row comes from a success record — failure
records are excluded. -/
theorem dataframe_success_rows (results : List MoleculeRecord) :
    (save_results_to_dataframe results).length =
      (results.filter fun r => r.body.isSuccess).length ∧
    (∀ r ∈ results, ∀ v : Indices, r.body = .indices v →
      (r.drug, v) ∈ save_results_to_dataframe results) ∧
    ∀ p ∈ save_results_to_dataframe results,
      ∃ r ∈ results, r.drug = p.1 ∧ r.body = .indices p.2 := by
  refine ⟨by simp [save_results_to_dataframe], ?_, ?_⟩
  · intro r hr v hv
    rw [save_results_to_dataframe, List.mem_map]
    refine ⟨r, List.mem_filter.mpr ⟨hr, ?_⟩, ?_⟩
    · rw [hv]; rfl
    · rw [hv]; rfl
  · intro p hp
    rw [save_results_to_dataframe, List.mem_map] at hp
    obtain ⟨r, hrf, rfl⟩ := hp
    obtain ⟨hr, hs⟩ := List.mem_filter.mp hrf
    refine ⟨r, hr, rfl, ?_⟩
    cases hb : r.body with
    | indices v => rfl
    | error e => rw [hb] at hs; simp [RecordBody.isSuccess] at hs

/-- Witness for claim C9: a batch with one failure and one success record
produces a one-row table containing the success row. -/
theorem dataframe_success_rows_witness :
    (⟨['b'], RecordBody.indices initialIndices⟩ : MoleculeRecord) ∈
      ([⟨['a'], .error none⟩, ⟨['b'], .indices initialIndices⟩] : List MoleculeRecord) ∧
    (['b'], initialIndices) ∈
      save_results_to_dataframe
        [⟨['a'], .error none⟩, ⟨['b'], .indices initialIndices⟩] := by
  have hmem : (⟨['b'], RecordBody.indices initialIndices⟩ : MoleculeRecord) ∈
      ([⟨['a'], .error none⟩, ⟨['b'], .indices initialIndices⟩] : List MoleculeRecord) :=
    List.mem_cons_of_mem _ (List.mem_cons_self _ _)
  exact ⟨hmem,
    (dataframe_success_rows
      [⟨['a'], .error none⟩, ⟨['b'], .indices initialIndices⟩]).2.1 _ hmem
      initialIndices rfl⟩

end DrugIndices
